import Mathlib

/-!
Verification of the `particle` lexer-generator core: a shallow embedding of
`src/automatons.rs` (NFA algebra, subset construction, DFA minimization) and
`src/lexer.rs` (scan loop, locations), with theorems settling the spec claims.

Machine maps used by the Rust code are modelled as association lists
(`FxHashMap` with unique keys), multimaps as flat lists of key/value entries in
insertion order (`MultiMap` stores per-key vectors in insertion order, so
filtering the flat list by a key recovers exactly that vector), and ordered
sets (`BTreeSet`) as sorted duplicate-free lists produced by `canon`.
-/

namespace Particle

/-- Sorted insertion into a sorted duplicate-free list (skips an element
already present). -/
def sortedInsert (a : Nat) : List Nat → List Nat
  | [] => [a]
  | b :: l =>
    if a < b then a :: b :: l
    else if a = b then b :: l
    else b :: sortedInsert a l

/-- Canonical sorted duplicate-free form of a list of naturals; models a
`BTreeSet<usize>` built from the list's elements. -/
def canon (l : List Nat) : List Nat := l.foldr sortedInsert []

theorem mem_sortedInsert (a x : Nat) : ∀ l, x ∈ sortedInsert a l ↔ x = a ∨ x ∈ l := by
  intro l
  induction l with
  | nil => simp [sortedInsert]
  | cons b t ih =>
    by_cases h1 : a < b
    · simp [sortedInsert, h1]
    · by_cases h2 : a = b
      · subst h2
        have he : sortedInsert a (a :: t) = a :: t := by simp [sortedInsert, h1]
        rw [he, List.mem_cons]
        tauto
      · simp [sortedInsert, h1, h2, ih]
        tauto

theorem mem_canon (x : Nat) : ∀ l, x ∈ canon l ↔ x ∈ l := by
  intro l
  induction l with
  | nil => simp [canon]
  | cons b t ih =>
    simp only [canon, List.foldr] at *
    rw [mem_sortedInsert]
    simp [ih]

theorem sorted_sortedInsert (a : Nat) :
    ∀ l, l.Sorted (· < ·) → (sortedInsert a l).Sorted (· < ·) := by
  intro l
  induction l with
  | nil => simp [sortedInsert]
  | cons b t ih =>
    intro hs
    rw [List.sorted_cons] at hs
    by_cases h1 : a < b
    · rw [sortedInsert, if_pos h1, List.sorted_cons]
      constructor
      · intro x hx
        rcases List.mem_cons.1 hx with h | h
        · omega
        · exact lt_trans h1 (hs.1 x h)
      · rw [List.sorted_cons]; exact hs
    · by_cases h2 : a = b
      · rw [sortedInsert, if_neg h1, if_pos h2, List.sorted_cons]; exact hs
      · rw [sortedInsert, if_neg h1, if_neg h2, List.sorted_cons]
        constructor
        · intro x hx
          rw [mem_sortedInsert] at hx
          rcases hx with h | h
          · omega
          · exact hs.1 x h
        · exact ih hs.2

theorem sorted_canon : ∀ l, (canon l).Sorted (· < ·) := by
  intro l
  induction l with
  | nil => simp [canon]
  | cons b t ih => exact sorted_sortedInsert b _ ih

theorem nodup_canon (l : List Nat) : (canon l).Nodup :=
  (sorted_canon l).nodup

/-- Two strictly sorted lists with the same members are equal. -/
theorem sorted_lt_eq_of_mem_iff :
    ∀ l₁ l₂ : List Nat, l₁.Sorted (· < ·) → l₂.Sorted (· < ·) →
      (∀ x, x ∈ l₁ ↔ x ∈ l₂) → l₁ = l₂ := by
  intro l₁
  induction l₁ with
  | nil =>
    intro l₂ _ _ hm
    cases l₂ with
    | nil => rfl
    | cons b t => exact absurd ((hm b).2 (List.mem_cons_self b t)) (by simp)
  | cons a t₁ ih =>
    intro l₂ h₁ h₂ hm
    cases l₂ with
    | nil => exact absurd ((hm a).1 (List.mem_cons_self a t₁)) (by simp)
    | cons b t₂ =>
      rw [List.sorted_cons] at h₁ h₂
      have hab : a = b := by
        have ha : a ∈ b :: t₂ := (hm a).1 (List.mem_cons_self a t₁)
        have hb : b ∈ a :: t₁ := (hm b).2 (List.mem_cons_self b t₂)
        rcases List.mem_cons.1 ha with h | h
        · exact h
        · rcases List.mem_cons.1 hb with h' | h'
          · exact h'.symm
          · have := h₂.1 a h
            have := h₁.1 b h'
            omega
      subst hab
      have : t₁ = t₂ := by
        refine ih t₂ h₁.2 h₂.2 ?_
        intro x
        constructor
        · intro hx
          have hxl := (hm x).1 (List.mem_cons_of_mem a hx)
          rcases List.mem_cons.1 hxl with h | h
          · exact absurd (h ▸ h₁.1 x hx) (lt_irrefl x)
          · exact h
        · intro hx
          have hxl := (hm x).2 (List.mem_cons_of_mem a hx)
          rcases List.mem_cons.1 hxl with h | h
          · exact absurd (h ▸ h₂.1 x hx) (lt_irrefl x)
          · exact h
      rw [this]

theorem canon_eq_canon_of_mem_iff {l₁ l₂ : List Nat}
    (h : ∀ x, x ∈ l₁ ↔ x ∈ l₂) : canon l₁ = canon l₂ :=
  sorted_lt_eq_of_mem_iff _ _ (sorted_canon l₁) (sorted_canon l₂)
    (fun x => by rw [mem_canon, mem_canon]; exact h x)

/-- `enum Transition` of `automatons.rs`: a byte input or an epsilon edge. -/
inductive Transition where
  | input : Nat → Transition
  | epsilon : Transition
deriving DecidableEq, Repr

/-- `struct NFA` of `automatons.rs`.  `final_states: FxHashMap<StateId, BranchId>`
is an association list with unique keys; `transitions: MultiMap<(StateId,
Transition), StateId>` is the flat list of its entries in insertion order. -/
structure NFA where
  initial_state : Nat
  final_states : List (Nat × Nat)
  transitions : List ((Nat × Transition) × Nat)
deriving DecidableEq, Repr

/-- Largest state id named by a list of transition entries, `0` if none:
the body of `NFA::max_state_id` / `DFA::max_state_id`. -/
def maxIdList (l : List ((Nat × Transition) × Nat)) : Nat :=
  (l.map (fun e => max e.1.1 e.2)).foldr max 0

/-- `NFA::max_state_id`. -/
def NFA.max_state_id (n : NFA) : Nat := maxIdList n.transitions

/-- `transitions.get_vec(&(u, Transition::Epsilon))`, flattened to `[]` when absent. -/
def epsTargets (trans : List ((Nat × Transition) × Nat)) (u : Nat) : List Nat :=
  (trans.filter (fun e => e.1 = (u, Transition.epsilon))).map (fun e => e.2)

/-- `transitions.get_vec(&(u, Transition::Input(b)))`, flattened to `[]` when absent. -/
def inputTargets (trans : List ((Nat × Transition) × Nat)) (u b : Nat) : List Nat :=
  (trans.filter (fun e => e.1 = (u, Transition.input b))).map (fun e => e.2)

/-- Inner body of the `epsilon_closure` worklist: for a target `v`, if it is
not yet in the visited set `p.1`, insert it and push it on the stack `p.2`. -/
def pushStep (p : List Nat × List Nat) (v : Nat) : List Nat × List Nat :=
  if v ∈ p.1 then p else (p.1 ++ [v], v :: p.2)

/-- The worklist loop of `NFA::epsilon_closure`.  The stack's top is the list
head (Rust pushes to / pops from the vector's end).  `fuel` bounds the number
of loop iterations; the Rust loop always terminates, and
`epsilon_closure` below passes fuel proven sufficient
(`epsClosureAux_run`). -/
def epsClosureAux (trans : List ((Nat × Transition) × Nat)) :
    Nat → List Nat → List Nat → List Nat
  | 0, _, ret => ret
  | _ + 1, [], ret => ret
  | fuel + 1, u :: stack, ret =>
    let p := (epsTargets trans u).foldl pushStep (ret, stack)
    epsClosureAux trans fuel p.2 p.1

/-- `NFA::epsilon_closure`: worklist reachability over epsilon edges, returned
as a canonical sorted set (`BTreeSet`). -/
def NFA.epsilon_closure (n : NFA) (s : Nat) : List Nat :=
  canon (epsClosureAux n.transitions (n.transitions.length + 2) [s] [s])

/-- `NFA::transition_set`: for every `u` in the set and every target `v` of
`(u, Input(input))`, union in `epsilon_closure(v)` (a `BTreeSet` union). -/
def NFA.transition_set (n : NFA) (S : List Nat) (input : Nat) : List Nat :=
  canon (S.flatMap (fun u =>
    (inputTargets n.transitions u input).flatMap (fun v => n.epsilon_closure v)))

/-- State set reached after consuming the byte string `x`, starting from the
epsilon closure of the initial state (as in subset construction). -/
def NFA.runSet (n : NFA) (x : List Nat) : List Nat :=
  x.foldl n.transition_set (n.epsilon_closure n.initial_state)

/-- The NFA accepts a byte string iff the reached state set contains a final
state — exactly the criterion `DFA::from` uses to mark a subset state
accepting. -/
def NFA.accepts (n : NFA) (x : List Nat) : Bool :=
  (n.runSet x).any (fun u => (n.final_states.lookup u).isSome)

/-- `NFA::new`. -/
def NFA.new : NFA := ⟨0, [], []⟩

/-- `impl From<&str> for NFA`, over the string's UTF-8 bytes: a chain
`0 →b₁→ 1 →b₂→ … →bₙ→ n` with `n` final on branch 0. -/
def NFA.fromBytes (bs : List Nat) : NFA :=
  let p := bs.foldl
    (fun (p : List ((Nat × Transition) × Nat) × Nat) b =>
      (p.1 ++ [((p.2, Transition.input b), p.2 + 1)], p.2 + 1))
    ([], 0)
  ⟨0, [(p.2, 0)], p.1⟩

/-- UTF-8 encoding of a Unicode scalar value (what `char::encode_utf8`
produces). -/
def utf8Encode (c : Nat) : List Nat :=
  if c < 0x80 then [c]
  else if c < 0x800 then [0xC0 + c / 64, 0x80 + c % 64]
  else if c < 0x10000 then
    [0xE0 + c / 4096, 0x80 + c / 64 % 64, 0x80 + c % 64]
  else
    [0xF0 + c / 262144, 0x80 + c / 4096 % 64, 0x80 + c / 64 % 64, 0x80 + c % 64]

/-- `impl From<char> for NFA`: the same per-byte chain loop as `From<&str>`,
run over the character's UTF-8 encoding. -/
def NFA.fromChar (c : Char) : NFA := NFA.fromBytes (utf8Encode c.toNat)

/-- Bytes of the inclusive byte range `r.1..=r.2`. -/
def rangeBytes (r : Nat × Nat) : List Nat :=
  (List.range (r.2 + 1 - r.1)).map (· + r.1)

/-- Inner loop of `impl From<(char, char)> for NFA` over one UTF-8 byte-range
sequence: threads `last` and `next_id`, emitting one edge per byte of each
range and returning the entries, the final `last`, and the updated `next_id`. -/
def fromRangeSeqInner :
    List (Nat × Nat) → Nat → Nat → List ((Nat × Transition) × Nat) × Nat × Nat
  | [], last, next => ([], last, next)
  | r :: rest, last, next =>
    let entries := (rangeBytes r).map (fun b => ((last, Transition.input b), next))
    let q := fromRangeSeqInner rest next (next + 1)
    (entries ++ q.1, q.2)

/-- Outer loop of `impl From<(char, char)> for NFA` over the byte-range
sequences: each sequence restarts `last` at 0, shares `next_id`, and marks its
final `last` as a branch-0 final state. -/
def fromRangeSeqsAux :
    List (List (Nat × Nat)) → Nat →
      List ((Nat × Transition) × Nat) × List (Nat × Nat) × Nat
  | [], next => ([], [], next)
  | seq :: rest, next =>
    let q := fromRangeSeqInner seq 0 next
    let q2 := fromRangeSeqsAux rest q.2.2
    (q.1 ++ q2.1, (q.2.1, 0) :: q2.2.1, q2.2.2)

/-- `impl From<(char, char)> for NFA`, parameterized by the byte-range
sequences the external `utf8_ranges::Utf8Sequences` iterator yields for the
interval (the loop itself is translated from the source; the iterator is
third-party code). -/
def NFA.fromRangeSeqs (seqs : List (List (Nat × Nat))) : NFA :=
  let q := fromRangeSeqsAux seqs 1
  ⟨0, q.2.1, q.1⟩

/-- Modelled from the spec: the external `utf8_ranges::Utf8Sequences`
decomposition of a char interval, specialized to a degenerate interval
`[c, c]` — "the minimal set of UTF-8 byte sequences that cover exactly the
scalars in the range" is then the single sequence of one-byte ranges
`[bᵢ, bᵢ]` over `c`'s UTF-8 encoding. -/
def utf8SequencesPoint (c : Nat) : List (List (Nat × Nat)) :=
  [(utf8Encode c).map (fun b => (b, b))]

/-- `NFA::from((c, c))`: the source's `From<(char, char)>` loop applied to the
degenerate interval's byte-range sequences. -/
def NFA.fromRangePoint (c : Nat) : NFA :=
  NFA.fromRangeSeqs (utf8SequencesPoint c)

/-- Rebias a transition list by `bias` (state renumbering of a merged-in NFA). -/
def biasedTrans (l : List ((Nat × Transition) × Nat)) (bias : Nat) :
    List ((Nat × Transition) × Nat) :=
  l.map (fun e => ((e.1.1 + bias, e.1.2), e.2 + bias))

/-- `impl BitAnd for NFA` (concatenation `self & rhs`): keep `self`'s initial
state, take `rhs`'s final states biased, add epsilon edges from `self`'s old
finals to `rhs`'s biased initial, and append `rhs`'s biased transitions. -/
def NFA.concat (a b : NFA) : NFA :=
  let bias := a.max_state_id + 1
  { initial_state := a.initial_state,
    final_states := b.final_states.map (fun p => (p.1 + bias, p.2)),
    transitions := a.transitions
      ++ a.final_states.map (fun p => ((p.1, Transition.epsilon), b.initial_state + bias))
      ++ biasedTrans b.transitions bias }

/-- `impl BitOr for NFA` (alternation `self | rhs`): union of final states
(rhs biased), append rhs's biased transitions, then allocate a fresh initial
state with epsilon edges to both old initial states. -/
def NFA.alt (a b : NFA) : NFA :=
  let bias := a.max_state_id + 1
  let newInit := bias + b.max_state_id + 1
  { initial_state := newInit,
    final_states := a.final_states ++ b.final_states.map (fun p => (p.1 + bias, p.2)),
    transitions := a.transitions ++ biasedTrans b.transitions bias
      ++ [((newInit, Transition.epsilon), a.initial_state),
          ((newInit, Transition.epsilon), b.initial_state + bias)] }

/-- `NFA::zero_or_more`: epsilon edges from every old final back to the
initial state (collected through an `FxHashMap`, hence deduplicated), then the
initial state becomes the sole final state on branch 0. -/
def NFA.zero_or_more (a : NFA) : NFA :=
  { initial_state := a.initial_state,
    final_states := [(a.initial_state, 0)],
    transitions := a.transitions
      ++ (a.final_states.map
            (fun p => ((p.1, Transition.epsilon), a.initial_state))).dedup }

/-- `NFA::one_or_more`: `self & self.clone().zero_or_more()`. -/
def NFA.one_or_more (a : NFA) : NFA := a.concat a.zero_or_more

/-- `NFA::optional`: a freshly allocated state becomes the sole final state,
reached by epsilon edges from every old final and from the initial state. -/
def NFA.optional (a : NFA) : NFA :=
  let newFinal := a.max_state_id + 1
  { initial_state := a.initial_state,
    final_states := [(newFinal, 0)],
    transitions := a.transitions
      ++ a.final_states.map (fun p => ((p.1, Transition.epsilon), newFinal))
      ++ [((a.initial_state, Transition.epsilon), newFinal)] }

/-- `NFA::set_branch`: overwrite the branch id of every current final state. -/
def NFA.set_branch (a : NFA) (branch : Nat) : NFA :=
  { a with final_states := a.final_states.map (fun p => (p.1, branch)) }

/-- One epsilon edge step. -/
def EpsStep (trans : List ((Nat × Transition) × Nat)) (a b : Nat) : Prop :=
  b ∈ epsTargets trans a

/-- Reachability along epsilon edges: the mathematical specification of
`NFA::epsilon_closure`. -/
def EpsReach (trans : List ((Nat × Transition) × Nat)) : Nat → Nat → Prop :=
  Relation.ReflTransGen (EpsStep trans)

theorem pushFold_spec (vs : List Nat) : ∀ ret stack : List Nat,
    ret ⊆ (vs.foldl pushStep (ret, stack)).1 ∧
    (∀ w, w ∈ (vs.foldl pushStep (ret, stack)).1 ↔ w ∈ ret ∨ w ∈ vs) ∧
    (∀ w, w ∈ (vs.foldl pushStep (ret, stack)).2 ↔
      w ∈ stack ∨ (w ∈ vs ∧ w ∉ ret)) ∧
    (ret.Nodup → (vs.foldl pushStep (ret, stack)).1.Nodup) ∧
    (vs.foldl pushStep (ret, stack)).2.length + ret.length =
      stack.length + (vs.foldl pushStep (ret, stack)).1.length := by
  induction vs with
  | nil =>
    intro ret stack
    refine ⟨fun w hw => hw, ?_, ?_, fun h => h, rfl⟩ <;> simp
  | cons v vs ih =>
    intro ret stack
    by_cases hv : v ∈ ret
    · have hstep : pushStep (ret, stack) v = (ret, stack) := by
        simp [pushStep, hv]
      rw [List.foldl_cons, hstep]
      obtain ⟨i1, i2, i3, i4, i5⟩ := ih ret stack
      refine ⟨i1, ?_, ?_, i4, i5⟩
      · intro w
        rw [i2 w, List.mem_cons]
        constructor
        · tauto
        · rintro (h | h | h)
          · exact Or.inl h
          · exact Or.inl (h ▸ hv)
          · exact Or.inr h
      · intro w
        rw [i3 w, List.mem_cons]
        constructor
        · tauto
        · rintro (h | ⟨(h | h), hw⟩)
          · exact Or.inl h
          · exact absurd (h ▸ hv) hw
          · exact Or.inr ⟨h, hw⟩
    · have hstep : pushStep (ret, stack) v = (ret ++ [v], v :: stack) := by
        simp [pushStep, hv]
      rw [List.foldl_cons, hstep]
      obtain ⟨i1, i2, i3, i4, i5⟩ := ih (ret ++ [v]) (v :: stack)
      refine ⟨?_, ?_, ?_, ?_, ?_⟩
      · intro w hw
        exact i1 (List.mem_append_left _ hw)
      · intro w
        rw [i2 w]
        simp only [List.mem_append, List.mem_singleton, List.mem_cons]
        tauto
      · intro w
        rw [i3 w]
        simp only [List.mem_append, List.mem_singleton, List.mem_cons]
        by_cases hwv : w = v
        · subst hwv
          tauto
        · tauto
      · intro hnd
        exact i4 (by
          rw [List.nodup_append]
          exact ⟨hnd, List.nodup_singleton v, by
            intro x hx hx'
            rw [List.mem_singleton] at hx'
            exact hv (hx' ▸ hx)⟩)
      · have := i5
        simp only [List.length_append, List.length_cons, List.length_nil] at this ⊢
        omega

/-- Loop invariant of the `epsilon_closure` worklist: the visited set is
duplicate-free, contains the stack, is sound for reachability from `s`,
contains only `s` and epsilon-edge targets, and is epsilon-closed at every
state already fully processed. -/
def ClosInv (trans : List ((Nat × Transition) × Nat)) (s : Nat)
    (stack ret : List Nat) : Prop :=
  ret.Nodup ∧ stack ⊆ ret ∧
  (∀ u ∈ ret, EpsReach trans s u) ∧
  (∀ u ∈ ret, u = s ∨ ∃ e ∈ trans, e.1.2 = Transition.epsilon ∧ e.2 = u) ∧
  (∀ u ∈ ret, u ∉ stack → ∀ v ∈ epsTargets trans u, v ∈ ret)

theorem closRet_bound (trans : List ((Nat × Transition) × Nat)) (s : Nat)
    (ret : List Nat) (hnd : ret.Nodup)
    (hb : ∀ u ∈ ret, u = s ∨ ∃ e ∈ trans, e.1.2 = Transition.epsilon ∧ e.2 = u) :
    ret.length ≤ trans.length + 1 := by
  have hsub : ret ⊆ s :: trans.map (fun e => e.2) := by
    intro u hu
    rcases hb u hu with h | ⟨e, he, _, h2⟩
    · exact h ▸ List.mem_cons_self _ _
    · exact List.mem_cons_of_mem _ (h2 ▸ List.mem_map_of_mem _ he)
  calc ret.length = ret.toFinset.card := (List.toFinset_card_of_nodup hnd).symm
    _ ≤ (s :: trans.map (fun e => e.2)).toFinset.card := by
        apply Finset.card_le_card
        intro x hx
        rw [List.mem_toFinset] at hx ⊢
        exact hsub hx
    _ ≤ (s :: trans.map (fun e => e.2)).length := List.toFinset_card_le _
    _ = trans.length + 1 := by simp

theorem epsTargets_sub (trans : List ((Nat × Transition) × Nat)) (u : Nat) :
    ∀ v ∈ epsTargets trans u, ∃ e ∈ trans, e.1.2 = Transition.epsilon ∧ e.2 = v := by
  intro v hv
  simp only [epsTargets, List.mem_map, List.mem_filter] at hv
  obtain ⟨e, ⟨he, hkey⟩, hv2⟩ := hv
  refine ⟨e, he, ?_, hv2⟩
  have : e.1 = (u, Transition.epsilon) := by
    simpa using hkey
  rw [this]

theorem nodup_subset_length (l l' : List Nat) (hnd : l.Nodup) (hsub : l ⊆ l') :
    l.length ≤ l'.length :=
  calc l.length = l.toFinset.card := (List.toFinset_card_of_nodup hnd).symm
    _ ≤ l'.toFinset.card := by
        apply Finset.card_le_card
        intro x hx
        rw [List.mem_toFinset] at hx ⊢
        exact hsub hx
    _ ≤ l'.length := List.toFinset_card_le _

theorem epsClosureAux_run (trans : List ((Nat × Transition) × Nat)) (s : Nat) :
    ∀ fuel stack ret, ClosInv trans s stack ret →
      stack.length + (trans.length + 1 - ret.length) + 1 ≤ fuel →
      ClosInv trans s [] (epsClosureAux trans fuel stack ret) ∧
      ret ⊆ epsClosureAux trans fuel stack ret := by
  intro fuel
  induction fuel with
  | zero => intro stack ret _ hf; omega
  | succ fuel ih =>
    intro stack ret hinv hf
    match stack with
    | [] => exact ⟨hinv, fun u hu => hu⟩
    | u :: stack =>
      obtain ⟨hnd, hsub, hsound, hbound, hclosed⟩ := hinv
      have hu : u ∈ ret := hsub (List.mem_cons_self u stack)
      obtain ⟨f1, f2, f3, f4, f5⟩ := pushFold_spec (epsTargets trans u) ret stack
      set q := (epsTargets trans u).foldl pushStep (ret, stack) with hq
      have hret'len : q.1.length ≤ trans.length + 1 := by
        apply closRet_bound trans s q.1 (f4 hnd)
        intro w hw
        rcases (f2 w).1 hw with h | h
        · exact hbound w h
        · obtain ⟨e, he, h1, h2⟩ := epsTargets_sub trans u w h
          exact Or.inr ⟨e, he, h1, h2⟩
      have hinv' : ClosInv trans s q.2 q.1 := by
        refine ⟨f4 hnd, ?_, ?_, ?_, ?_⟩
        · intro w hw
          rcases (f3 w).1 hw with h | ⟨h, _⟩
          · exact f1 (hsub (List.mem_cons_of_mem u h))
          · exact (f2 w).2 (Or.inr h)
        · intro w hw
          rcases (f2 w).1 hw with h | h
          · exact hsound w h
          · exact Relation.ReflTransGen.tail (hsound u hu) h
        · intro w hw
          rcases (f2 w).1 hw with h | h
          · exact hbound w h
          · obtain ⟨e, he, h1, h2⟩ := epsTargets_sub trans u w h
            exact Or.inr ⟨e, he, h1, h2⟩
        · intro w hw hwn v hv
          by_cases hwu : w = u
          · exact (f2 v).2 (Or.inr (hwu ▸ hv))
          · by_cases hwr : w ∈ ret
            · have hwstack : w ∉ stack := fun hc => hwn ((f3 w).2 (Or.inl hc))
              have hwus : w ∉ u :: stack := by
                rw [List.mem_cons]; tauto
              exact f1 (hclosed w hwr hwus v hv)
            · have hwvs : w ∈ epsTargets trans u := by
                rcases (f2 w).1 hw with h | h
                · exact absurd h hwr
                · exact h
              exact absurd ((f3 w).2 (Or.inr ⟨hwvs, hwr⟩)) hwn
      have hretle : ret.length ≤ q.1.length :=
        nodup_subset_length ret q.1 hnd f1
      have hstep : epsClosureAux trans (fuel + 1) (u :: stack) ret =
          epsClosureAux trans fuel q.2 q.1 := by
        simp [epsClosureAux, hq]
      have hfuel' : q.2.length + (trans.length + 1 - q.1.length) + 1 ≤ fuel := by
        simp only [List.length_cons] at hf
        omega
      obtain ⟨hres, hsubres⟩ := ih q.2 q.1 hinv' hfuel'
      rw [hstep]
      exact ⟨hres, fun w hw => hsubres (f1 hw)⟩

/-- `NFA::epsilon_closure` computes exactly epsilon reachability. -/
theorem mem_epsilon_closure (n : NFA) (s u : Nat) :
    u ∈ n.epsilon_closure s ↔ EpsReach n.transitions s u := by
  have hinv : ClosInv n.transitions s [s] [s] := by
    refine ⟨List.nodup_singleton s, fun x hx => hx, ?_, ?_, ?_⟩
    · intro x hx
      rw [List.mem_singleton] at hx
      exact hx ▸ Relation.ReflTransGen.refl
    · intro x hx
      rw [List.mem_singleton] at hx
      exact Or.inl hx
    · intro x hx hxn
      exact absurd hx hxn
  have hfuel : [s].length + (n.transitions.length + 1 - [s].length) + 1 ≤
      n.transitions.length + 2 := by
    simp only [List.length_cons, List.length_nil]
    omega
  obtain ⟨⟨hnd, _, hsound, _, hclosed⟩, hsub⟩ :=
    epsClosureAux_run n.transitions s (n.transitions.length + 2) [s] [s] hinv hfuel
  rw [NFA.epsilon_closure, mem_canon]
  constructor
  · intro hu
    exact hsound u hu
  · intro hreach
    induction hreach with
    | refl => exact hsub (List.mem_singleton_self s)
    | tail _ hstep ihr =>
      exact hclosed _ ihr (List.not_mem_nil _) _ hstep

/-- `struct DFA` of `automatons.rs`.  `final_states: FxHashMap<StateId,
FxHashSet<BranchId>>` is an association list from state to canonical branch
set; `transitions: FxHashMap<(StateId, u8), StateId>` is an association list
with unique keys. -/
structure DFA where
  initial_state : Nat
  final_states : List (Nat × List Nat)
  transitions : List ((Nat × Nat) × Nat)
deriving DecidableEq, Repr

/-- `DFA::new`. -/
def DFA.new : DFA := ⟨0, [], []⟩

/-- `DFA::max_state_id`. -/
def DFA.max_state_id (d : DFA) : Nat :=
  (d.transitions.map (fun e => max e.1.1 e.2)).foldr max 0

/-- `self.transitions.get(&(s, b))`. -/
def DFA.lookupTrans (d : DFA) (s b : Nat) : Option Nat :=
  (d.transitions.find? (fun e => e.1 = (s, b))).map (fun e => e.2)

/-- Run the DFA on a byte string from the initial state; `none` when a
transition is missing (the implicit dead state). -/
def DFA.run (d : DFA) (x : List Nat) : Option Nat :=
  x.foldl (fun s b => s.bind (fun s => d.lookupTrans s b)) (some d.initial_state)

/-- Branch-id set carried by the state reached after consuming `x`: empty when
the run dies or ends in a non-accepting state. -/
def DFA.branchesAfter (d : DFA) (x : List Nat) : List Nat :=
  match d.run x with
  | none => []
  | some s => ((d.final_states.lookup s).getD [])

/-- Byte labels of character transitions leaving NFA state `u`: the per-state
`edges_out` precomputation of `DFA::from`. -/
def edgesOutOf (n : NFA) (u : Nat) : List Nat :=
  n.transitions.filterMap (fun e =>
    match e.1 with
    | (v, Transition.input b) => if v = u then some b else none
    | (_, Transition.epsilon) => none)

/-- Worklist loop of `impl From<NFA> for DFA` (subset construction).  The
`states` map from state set to DFA index is an association list; the stack's
top is the head.  Iteration over the per-subset outgoing-byte hash set is
modelled in ascending byte order (the Rust `FxHashSet` order is unspecified).
Fuel bounds the iterations; the concrete uses below terminate well within it. -/
def dfaFromAux (n : NFA) :
    Nat → List (List Nat × Nat) → List (List Nat) → Nat → DFA → DFA
  | 0, _, _, _, acc => acc
  | fuel + 1, states, stack, next, acc =>
    match stack with
    | [] => acc
    | state_now :: rest =>
      let idx := (states.lookup state_now).getD 0
      let branches := canon (state_now.filterMap (fun u => n.final_states.lookup u))
      let edges := canon (state_now.flatMap (edgesOutOf n))
      let acc1 := if branches.isEmpty then acc
        else { acc with final_states := acc.final_states ++ [(idx, branches)] }
      let st := edges.foldl
        (fun (st : List (List Nat × Nat) × List (List Nat) × Nat × DFA) ch =>
          let toSet := n.transition_set state_now ch
          match st.1.lookup toSet with
          | some toIdx =>
            (st.1, st.2.1, st.2.2.1,
             { st.2.2.2 with
                transitions := st.2.2.2.transitions ++ [((idx, ch), toIdx)] })
          | none =>
            (st.1 ++ [(toSet, st.2.2.1)], toSet :: st.2.1, st.2.2.1 + 1,
             { st.2.2.2 with
                transitions := st.2.2.2.transitions ++ [((idx, ch), st.2.2.1)] }))
        (states, rest, next, acc1)
      dfaFromAux n fuel st.1 st.2.1 st.2.2.1 st.2.2.2

/-- `impl From<NFA> for DFA`: subset construction, starting from the epsilon
closure of the NFA initial state as DFA state 0. -/
def NFA.toDFA (n : NFA) : DFA :=
  let init := n.epsilon_closure n.initial_state
  dfaFromAux n (2 ^ (n.transitions.length + 2)) [(init, 0)] [init] 1 DFA.new

/-- Sorted-set intersection `y ∩ x` (`BTreeSet::intersection`): `y` is kept
canonical, so filtering preserves sortedness. -/
def sinter (y x : List Nat) : List Nat := y.filter (fun a => a ∈ x)

/-- Sorted-set difference `y \ x` (`BTreeSet::difference`). -/
def sdiff (y x : List Nat) : List Nat := y.filter (fun a => a ∉ x)

/-- `IndexSet::insert`: append if not already present. -/
def indexInsert (l : List (List Nat)) (x : List Nat) : List (List Nat) :=
  if x ∈ l then l else l ++ [x]

/-- `IndexSet::remove` (a swap-remove): overwrite the found position with the
last element and drop the last slot. -/
def swapRemove (l : List (List Nat)) (y : List Nat) : List (List Nat) :=
  match l.indexOf? y with
  | none => l
  | some i => (l.set i (l.getLastD [])).dropLast

/-- Inner refinement loop of `DFA::minimize`: pop every block `y` of the old
partition (from the end), split it against the preimage set `x`, and rebuild
the partition while updating the distinguisher set exactly as the source does.
The first argument list is the old partition in pop (reversed) order. -/
def refineGo (x : List Nat) :
    List (List Nat) → List (List Nat) → List (List Nat) →
      List (List Nat) × List (List Nat)
  | [], newParts, dists => (newParts, dists)
  | y :: rest, newParts, dists =>
    let inter := sinter y x
    let diff := sdiff y x
    if inter.isEmpty ∨ diff.isEmpty then
      refineGo x rest (indexInsert newParts y) dists
    else
      let dists2 :=
        if y ∈ dists then
          indexInsert (indexInsert (swapRemove dists y) inter) diff
        else
          indexInsert dists (if inter.length ≤ diff.length then inter else diff)
      refineGo x rest (indexInsert (indexInsert newParts inter) diff) dists2

/-- Outer loop of `DFA::minimize`: pop a distinguisher `a` (from the end),
group its incoming transitions by byte, and refine the partition against each
byte's preimage set.  Byte groups are processed in first-occurrence order of
the flattened `reachable_from` entries (the Rust hash-map iteration order is
unspecified).  Fuel bounds the iterations; the Rust loop terminates, and the
concrete uses below stop well within the fuel passed by `minimize`. -/
def minimizeLoop (reach : Nat → List (Nat × Nat)) :
    Nat → List (List Nat) → List (List Nat) → List (List Nat)
  | 0, parts, _ => parts
  | fuel + 1, parts, dists =>
    match dists.getLast? with
    | none => parts
    | some a =>
      let dists1 := dists.dropLast
      let pairs := a.flatMap reach
      let bytes := (pairs.map (fun p => p.1)).dedup
      let pd := bytes.foldl
        (fun (pd : List (List Nat) × List (List Nat)) b =>
          let x := canon ((pairs.filter (fun p => p.1 = b)).map (fun p => p.2))
          refineGo x pd.1.reverse [] pd.2)
        (parts, dists1)
      minimizeLoop reach fuel pd.1 pd.2

/-- `FxHashMap::from_iter` over mapped transition entries: a later entry with
the same key overwrites the earlier one. -/
def collectAssoc (l : List ((Nat × Nat) × Nat)) : List ((Nat × Nat) × Nat) :=
  l.foldl (fun acc e =>
    if acc.any (fun e2 => e2.1 = e.1)
    then acc.map (fun e2 => if e2.1 = e.1 then e else e2)
    else acc ++ [e]) []

/-- `DFA::minimize`: partition refinement.  The initial partition is the pair
{accepting states, non-accepting states}; blocks are then refined by
transition preimages, and the quotient automaton is rebuilt over block
labels, with each output accept state carrying the union of branch sets of
its block's members. -/
def DFA.minimize (d : DFA) : DFA :=
  let reach := fun t =>
    (d.transitions.filter (fun e => e.2 = t)).map (fun e => (e.1.2, e.1.1))
  let allStates := List.range (d.max_state_id + 1)
  let finalsSet := allStates.filter (fun x => (d.final_states.lookup x).isSome)
  let nonFinal := sdiff allStates finalsSet
  let parts0 := indexInsert (indexInsert [] finalsSet) nonFinal
  let dists0 := indexInsert (indexInsert [] nonFinal) finalsSet
  let parts := minimizeLoop reach
    ((d.max_state_id + 2) * (d.max_state_id + 2) * 300) parts0 dists0
  let labelOf := fun (p : List Nat) => (parts.indexOf? p).getD 0
  let mapState := fun (s : Nat) =>
    ((parts.find? (fun p => s ∈ p)).map labelOf).getD 0
  { initial_state := mapState d.initial_state,
    final_states := parts.enum.filterMap (fun q =>
      let uni := canon (q.2.flatMap (fun x => (d.final_states.lookup x).getD []))
      if uni.isEmpty then none else some (q.1, uni)),
    transitions := collectAssoc
      (d.transitions.map (fun e => ((mapState e.1.1, e.1.2), mapState e.2))) }

/-- `struct Location` of `span.rs`. -/
structure Location where
  line : Nat
  col : Nat
deriving DecidableEq, Repr

/-- `struct Span` of `span.rs`. -/
structure Span where
  left : Location
  right : Location
deriving DecidableEq, Repr

/-- The location update performed by `LexerState::next` when consuming one
character: `\n` increments `line` and resets `col`, anything else increments
`col`. -/
def advanceLoc (loc : Location) (c : Char) : Location :=
  if c = '\n' then ⟨loc.line + 1, 0⟩ else ⟨loc.line, loc.col + 1⟩

/-- `struct LexerState` of `lexer.rs`: the peekable character iterator is the
remaining character list. -/
structure LexerState where
  chars : List Char
  location : Location
deriving DecidableEq, Repr

/-- `impl From<T> for LexerState`: start at line 1, column 0. -/
def LexerState.fromChars (cs : List Char) : LexerState :=
  ⟨cs, ⟨1, 0⟩⟩

/-- `LexerState::eof`. -/
def LexerState.eof (st : LexerState) : Bool := st.chars.isEmpty

/-- `LexerState::next`: consume one character and update the location; a
no-op at end of input. -/
def LexerState.next (st : LexerState) : LexerState :=
  match st.chars with
  | [] => st
  | c :: rest => ⟨rest, advanceLoc st.location c⟩

/-- `struct Lexer` of `lexer.rs`.  Handlers (`TokenHandler<T>`) take the
matched characters and the span. -/
structure Lexer (T : Type) where
  dfa : DFA
  discarded_branch : Nat
  handlers : List (Nat × (List Char → Span → T))

/-- The inner byte walk of `Lexer::next_token`: try to take every byte of a
transition chain from `s`; `none` as soon as one byte has no transition. -/
def walkBytes (d : DFA) (s : Nat) : List Nat → Option Nat
  | [] => some s
  | b :: rest =>
    match d.lookupTrans s b with
    | some s2 => walkBytes d s2 rest
    | none => none

/-- Walk all UTF-8 bytes of one character through the DFA (the
`ch.encode_utf8` loop of `next_token`). -/
def charWalk (d : DFA) (s : Nat) (c : Char) : Option Nat :=
  walkBytes d s (utf8Encode c.toNat)

/-- Result of the scanning loop of `Lexer::next_token`: the `accepted` flag,
final DFA state, token end location `to`, matched characters, remaining
characters, and the location after them. -/
structure ScanResult where
  accepted : Bool
  state : Nat
  toLoc : Location
  token : List Char
  rest : List Char
  loc : Location
deriving DecidableEq, Repr

/-- The `while !state.eof() && ch_accepted` loop of `Lexer::next_token`:
whole-character walks are committed one at a time — the DFA state advances,
`accepted` records whether the new state is accepting, `to` becomes the
location of the just-matched character, and the character is consumed. -/
def scanAux (d : DFA) :
    List Char → Location → Nat → Bool → Location → List Char → ScanResult
  | [], loc, s, acc, toL, tok => ⟨acc, s, toL, tok, [], loc⟩
  | c :: rest, loc, s, acc, toL, tok =>
    match charWalk d s c with
    | none => ⟨acc, s, toL, tok, c :: rest, loc⟩
    | some s2 =>
      scanAux d rest (advanceLoc loc c) s2
        ((d.final_states.lookup s2).isSome) loc (tok ++ [c])

/-- `self.dfa.final_states[&dfa_state].iter().min()`. -/
def minBranchAt (d : DFA) (s : Nat) : Option Nat :=
  (d.final_states.lookup s).bind (fun br => br.min?)

theorem scanAux_rest_length (d : DFA) :
    ∀ (chars : List Char) loc s acc toL tok,
      (scanAux d chars loc s acc toL tok).rest.length ≤ chars.length ∧
      ((scanAux d chars loc s acc toL tok).accepted = true →
        acc = true ∨ (scanAux d chars loc s acc toL tok).rest.length < chars.length) := by
  intro chars
  induction chars with
  | nil =>
    intro loc s acc toL tok
    exact ⟨Nat.le_refl _, fun h => Or.inl h⟩
  | cons c rest ih =>
    intro loc s acc toL tok
    cases hw : charWalk d s c with
    | none =>
      simp only [scanAux, hw]
      exact ⟨Nat.le_refl _, fun h => Or.inl h⟩
    | some s2 =>
      simp only [scanAux, hw, List.length_cons]
      obtain ⟨h1, h2⟩ :=
        ih (advanceLoc loc c) s2 ((d.final_states.lookup s2).isSome) loc (tok ++ [c])
      refine ⟨Nat.le_succ_of_le h1, fun hacc => Or.inr ?_⟩
      exact Nat.lt_succ_of_le h1

theorem scanAux_accepted_lt (d : DFA) (chars : List Char) (loc : Location)
    (s : Nat) (toL : Location) (tok : List Char)
    (h : (scanAux d chars loc s false toL tok).accepted = true) :
    (scanAux d chars loc s false toL tok).rest.length < chars.length := by
  rcases (scanAux_rest_length d chars loc s false toL tok).2 h with h2 | h2
  · exact absurd h2 (by simp)
  · exact h2

/-- `Lexer::next_token`.  Returns the Rust `Result` together with the updated
scanner state.  If the branch set indexed at the final state is missing or
empty the Rust code panics on `unwrap`; that (unreachable for DFAs built by
subset construction) case is modelled by a distinguished error value. -/
def Lexer.next_token {T : Type} (L : Lexer T) (st : LexerState) :
    Except String T × LexerState :=
  if _h : st.chars.isEmpty then (Except.error "End of file", st)
  else
    let r := scanAux L.dfa st.chars st.location L.dfa.initial_state
      false st.location []
    if hacc : r.accepted = true then
      match minBranchAt L.dfa r.state with
      | none => (Except.error "panic: no branch id at accepting state", ⟨r.rest, r.loc⟩)
      | some b =>
        match L.handlers.lookup b with
        | some handler =>
          (Except.ok (handler r.token ⟨st.location, r.toLoc⟩), ⟨r.rest, r.loc⟩)
        | none => L.next_token ⟨r.rest, r.loc⟩
    else
      (Except.error "Empty input or input cannot be accepted by DFA",
       ⟨r.rest, r.loc⟩)
  termination_by st.chars.length
  decreasing_by
    exact scanAux_accepted_lt L.dfa st.chars st.location L.dfa.initial_state
      st.location [] hacc

/-!  Concrete lexers used to exercise `next_token`. -/

/-- DFA of the three-rule lexer `"a" → 1`, `"ab" → 2`, `"abcd" → 3` (the
subset-construction DFA of these rules, written out directly). -/
def ruleChainDFA : DFA :=
  ⟨0, [(1, [1]), (2, [2]), (4, [3])],
   [((0, 97), 1), ((1, 98), 2), ((2, 99), 3), ((3, 100), 4)]⟩

def ruleChainLexer : Lexer Nat :=
  ⟨ruleChainDFA, 32, [(1, fun _ _ => 1), (2, fun _ _ => 2), (3, fun _ _ => 3)]⟩

/-- DFA of the single rule `"ab" → 1`. -/
def abOnlyDFA : DFA := ⟨0, [(2, [1])], [((0, 97), 1), ((1, 98), 2)]⟩

def abOnlyLexer : Lexer Nat := ⟨abOnlyDFA, 32, [(1, fun _ _ => 1)]⟩

/-- Discard-style lexer: branch 0 matches a space and has no handler, branch
1 matches `a`. -/
def discardDFA : DFA := ⟨0, [(1, [0]), (2, [1])], [((0, 32), 1), ((0, 97), 2)]⟩

def discardLexer : Lexer Nat := ⟨discardDFA, 0, [(1, fun _ _ => 41)]⟩

/-- Tie lexer: two rules accept exactly `"a"`, branches 1 and 2. -/
def tieDFA : DFA := ⟨0, [(1, [1, 2])], [((0, 97), 1)]⟩

def tieLexer : Lexer Nat := ⟨tieDFA, 32, [(1, fun _ _ => 1), (2, fun _ _ => 2)]⟩

/-- C1: the scan loop keeps no record of the last accepting state and never
rolls back.  With rules `"a"`(branch 1), `"ab"`(branch 2), `"abcd"`(branch 3),
on input `"abce"` the DFA accepts the prefixes `"a"` and `"ab"`, yet
`next_token` walks to `"abc"`, fails on `'e'`, and returns the no-match error
with `"abc"` consumed — instead of emitting a token spanning `"ab"` with the
input repositioned after it. -/
theorem next_token_no_rollback_demo :
    ruleChainDFA.branchesAfter [97] = [1] ∧
    ruleChainDFA.branchesAfter [97, 98] = [2] ∧
    ruleChainLexer.next_token ⟨['a', 'b', 'c', 'e'], ⟨1, 0⟩⟩ =
      (Except.error "Empty input or input cannot be accepted by DFA",
       ⟨['e'], ⟨1, 3⟩⟩) :=
  ⟨by decide, by decide, by rw [Lexer.next_token.eq_def]; rfl⟩

/-- C4: on the no-match error the scanner state is not restored.  With the
single rule `"ab"` and input `"a"`, no non-empty prefix is accepted (the
claim's no-match situation), yet `next_token` has consumed `'a'` and advanced
the location from `(1,0)` to `(1,1)`. -/
theorem next_token_no_match_consumes_demo :
    abOnlyDFA.branchesAfter [97] = [] ∧
    abOnlyLexer.next_token ⟨['a'], ⟨1, 0⟩⟩ =
      (Except.error "Empty input or input cannot be accepted by DFA",
       ⟨[], ⟨1, 1⟩⟩) ∧
    (⟨[], ⟨1, 1⟩⟩ : LexerState) ≠ ⟨['a'], ⟨1, 0⟩⟩ :=
  ⟨by decide, by rw [Lexer.next_token.eq_def]; rfl, by decide⟩

/-- C3: when the scan loop stops accepted, `next_token` selects the minimum
branch id of the accept state's branch set (`minBranchAt`) and, when that
branch has a handler, invokes it on the matched substring and span — so on an
exact tie the rule declared first (lower branch id) wins. -/
theorem next_token_min_branch {T : Type} (L : Lexer T) (st : LexerState)
    (hne : st.chars.isEmpty = false)
    (hacc : (scanAux L.dfa st.chars st.location L.dfa.initial_state
        false st.location []).accepted = true)
    (b : Nat)
    (hb : minBranchAt L.dfa (scanAux L.dfa st.chars st.location
        L.dfa.initial_state false st.location []).state = some b)
    (handler : List Char → Span → T)
    (hh : L.handlers.lookup b = some handler) :
    L.next_token st =
      (Except.ok (handler
          (scanAux L.dfa st.chars st.location L.dfa.initial_state
            false st.location []).token
          ⟨st.location,
           (scanAux L.dfa st.chars st.location L.dfa.initial_state
             false st.location []).toLoc⟩),
       ⟨(scanAux L.dfa st.chars st.location L.dfa.initial_state
           false st.location []).rest,
        (scanAux L.dfa st.chars st.location L.dfa.initial_state
          false st.location []).loc⟩) := by
  rw [Lexer.next_token.eq_def]
  rw [dif_neg (by rw [hne]; exact Bool.false_ne_true)]
  simp only [hacc, hb, hh, dif_pos]

/-- C3 witness: two rules accept exactly `"a"` with branches `{1, 2}`; the
branch-1 handler (returning `1`) is the one invoked. -/
theorem next_token_min_branch_witness :
    tieLexer.next_token ⟨['a'], ⟨1, 0⟩⟩ = (Except.ok 1, ⟨[], ⟨1, 1⟩⟩) :=
  next_token_min_branch tieLexer ⟨['a'], ⟨1, 0⟩⟩ rfl rfl 1 rfl (fun _ _ => 1) rfl

/-- C6: when the minimum branch of the accept set has no handler (the discard
branch — `define_lexer!` registers handlers for every non-discard branch),
`next_token` silently consumes the match and recurses to produce the next
token for the caller. -/
theorem next_token_discard {T : Type} (L : Lexer T) (st : LexerState)
    (hne : st.chars.isEmpty = false)
    (hacc : (scanAux L.dfa st.chars st.location L.dfa.initial_state
        false st.location []).accepted = true)
    (b : Nat)
    (hb : minBranchAt L.dfa (scanAux L.dfa st.chars st.location
        L.dfa.initial_state false st.location []).state = some b)
    (hh : L.handlers.lookup b = none) :
    L.next_token st =
      L.next_token
        ⟨(scanAux L.dfa st.chars st.location L.dfa.initial_state
            false st.location []).rest,
         (scanAux L.dfa st.chars st.location L.dfa.initial_state
           false st.location []).loc⟩ := by
  conv_lhs => rw [Lexer.next_token.eq_def]
  rw [dif_neg (by rw [hne]; exact Bool.false_ne_true)]
  simp only [hacc, hb, hh, dif_pos]

/-- C6 witness: with a discard rule for a space, scanning `" a"` equals
scanning `"a"` from the position after the space (the space is consumed
silently and the branch-1 token is produced). -/
theorem next_token_discard_witness :
    discardLexer.next_token ⟨[' ', 'a'], ⟨1, 0⟩⟩ =
      discardLexer.next_token ⟨['a'], ⟨1, 1⟩⟩ :=
  next_token_discard discardLexer ⟨[' ', 'a'], ⟨1, 0⟩⟩ rfl rfl 0 rfl rfl

/-- Modelled from the spec: the reference line/column tally — "`line` starts
at 1, `column` at 0; each consumed character advances `column` by 1, except
`\n` which increments `line` and resets `column` to 0." -/
def refTally (cs : List Char) : Location :=
  cs.foldl
    (fun loc c => if c = '\n' then ⟨loc.line + 1, 0⟩ else ⟨loc.line, loc.col + 1⟩)
    ⟨1, 0⟩

theorem next_iterate_aux (cs : List Char) : ∀ (rest : List Char) (loc : Location),
    LexerState.next^[cs.length] ⟨cs ++ rest, loc⟩ = ⟨rest, cs.foldl advanceLoc loc⟩ := by
  induction cs with
  | nil => intro rest loc; rfl
  | cons c cs ih =>
    intro rest loc
    rw [List.length_cons, Function.iterate_succ_apply]
    have hstep : LexerState.next ⟨(c :: cs) ++ rest, loc⟩ =
        ⟨cs ++ rest, advanceLoc loc c⟩ := rfl
    rw [hstep, ih rest (advanceLoc loc c)]
    rfl

/-- C9: a fresh scanner state starts at line 1, column 0; consuming a
character advances the column by 1 except `\n`, which increments the line and
resets the column; consequently consuming any character sequence leaves the
location at the reference line/column tally of that sequence. -/
theorem location_tracking :
    (∀ cs : List Char, (LexerState.fromChars cs).location = ⟨1, 0⟩) ∧
    (∀ (loc : Location) (c : Char) (rest : List Char),
      LexerState.next ⟨c :: rest, loc⟩ =
        ⟨rest, if c = '\n' then ⟨loc.line + 1, 0⟩ else ⟨loc.line, loc.col + 1⟩⟩) ∧
    (∀ cs rest : List Char,
      LexerState.next^[cs.length] (LexerState.fromChars (cs ++ rest)) =
        ⟨rest, refTally cs⟩) := by
  refine ⟨fun cs => rfl, fun loc c rest => rfl, fun cs rest => ?_⟩
  exact next_iterate_aux cs rest ⟨1, 0⟩

/-- C10: calling `LexerState::next` on an exhausted iterator is a total no-op
(the `eof` guard): iterator, line and column are unchanged, and — being a
total Lean function — it cannot panic. -/
theorem next_at_eof_noop (loc : Location) :
    LexerState.next ⟨[], loc⟩ = ⟨[], loc⟩ := rfl

/-!  The two-rule pipeline exercising subset construction and minimization. -/

/-- The accumulator NFA of a two-rule lexer `'a' → branch 1`, `'b' → branch 2`
built exactly as `define_lexer!` does: start from `NFA::new()` and alternate
in each branch-tagged rule. -/
def twoRuleNFA : NFA :=
  (NFA.new.alt ((NFA.fromChar 'a').set_branch 1)).alt
    ((NFA.fromChar 'b').set_branch 2)

/-- C2: minimization does not preserve the branch partition.  In the
subset-construction DFA of `twoRuleNFA`, input `"a"` reaches branch set
`{1}`; `minimize` starts from the two-block partition {accepting,
non-accepting}, merges the two accept states (which have equal transition
behaviour but branch sets `{1}` and `{2}`), and afterwards `"a"` reaches the
merged accept state carrying `{1, 2}`. -/
theorem minimize_merges_branch_sets_demo :
    (twoRuleNFA.toDFA).branchesAfter [97] = [1] ∧
    ((twoRuleNFA.toDFA).minimize).branchesAfter [97] = [1, 2] :=
  ⟨by decide, by decide⟩

/-!  The byte-chain NFAs produced by the literal constructors. -/

/-- The transition entry `i →b→ i+1` of a byte-chain NFA. -/
def chainEntry (q : Nat × Nat) : (Nat × Transition) × Nat :=
  ((q.1, Transition.input q.2), q.1 + 1)

theorem fromBytes_fold (bs : List Nat) :
    ∀ (acc : List ((Nat × Transition) × Nat)) (k : Nat),
      bs.foldl
        (fun (p : List ((Nat × Transition) × Nat) × Nat) b =>
          (p.1 ++ [((p.2, Transition.input b), p.2 + 1)], p.2 + 1)) (acc, k) =
      (acc ++ (bs.enumFrom k).map chainEntry, k + bs.length) := by
  induction bs with
  | nil => intro acc k; simp
  | cons b bs ih =>
    intro acc k
    rw [List.foldl_cons, ih, List.enumFrom_cons, List.map_cons]
    refine Prod.ext ?_ ?_
    · simp [chainEntry]
    · simp only [List.length_cons]
      omega

theorem fromBytes_eq (bs : List Nat) :
    NFA.fromBytes bs = ⟨0, [(bs.length, 0)], (bs.enumFrom 0).map chainEntry⟩ := by
  rw [NFA.fromBytes]
  rw [fromBytes_fold bs [] 0]
  simp

theorem chain_epsTargets (bs : List Nat) (k u : Nat) :
    epsTargets ((bs.enumFrom k).map chainEntry) u = [] := by
  have hfil : ((bs.enumFrom k).map chainEntry).filter
      (fun e => e.1 = (u, Transition.epsilon)) = [] := by
    rw [List.filter_eq_nil_iff]
    intro e he
    simp only [List.mem_map] at he
    obtain ⟨q, _, rfl⟩ := he
    simp [chainEntry]
  rw [epsTargets, hfil, List.map_nil]

theorem chain_inputTargets (bs : List Nat) : ∀ (k j c : Nat),
    inputTargets ((bs.enumFrom k).map chainEntry) j c =
      if k ≤ j ∧ bs[j - k]? = some c then [j + 1] else [] := by
  induction bs with
  | nil =>
    intro k j c
    simp [inputTargets]
  | cons b bs ih =>
    intro k j c
    rw [List.enumFrom_cons, List.map_cons, inputTargets, List.filter_cons]
    by_cases hkj : j = k ∧ c = b
    · obtain ⟨hj, hb⟩ := hkj
      subst hj
      subst hb
      have hpred : (decide ((chainEntry (j, c)).1 = (j, Transition.input c))) = true := by
        simp [chainEntry]
      rw [if_pos hpred, List.map_cons]
      have hrest := ih (j + 1) j c
      rw [inputTargets] at hrest
      rw [if_neg (by rintro ⟨hle, _⟩; omega)] at hrest
      rw [hrest]
      rw [if_pos ⟨Nat.le_refl j, by rw [Nat.sub_self, List.getElem?_cons_zero]⟩]
      rfl
    · have hpred : (decide ((chainEntry (k, b)).1 = (j, Transition.input c))) = false := by
        simp only [chainEntry, decide_eq_false_iff_not]
        intro hcc
        rw [Prod.mk.injEq] at hcc
        refine hkj ⟨hcc.1.symm, ?_⟩
        have h2 := hcc.2
        injection h2 with h3
        exact h3.symm
      rw [if_neg (by rw [hpred]; exact Bool.false_ne_true)]
      have hrest := ih (k + 1) j c
      rw [inputTargets] at hrest
      rw [hrest]
      by_cases hjk : k + 1 ≤ j
      · have hik : (b :: bs)[j - k]? = bs[j - (k + 1)]? := by
          have hd : j - k = (j - (k + 1)) + 1 := by omega
          rw [hd, List.getElem?_cons_succ]
        by_cases hcond : bs[j - (k + 1)]? = some c
        · rw [if_pos ⟨hjk, hcond⟩, if_pos ⟨by omega, by rw [hik]; exact hcond⟩]
        · rw [if_neg (by rintro ⟨_, hcc⟩; exact hcond hcc),
              if_neg (by rintro ⟨_, hcc⟩; rw [hik] at hcc; exact hcond hcc)]
      · rw [if_neg (by rintro ⟨hcc, _⟩; exact hjk hcc)]
        by_cases hjk2 : k ≤ j
        · have hje : j = k := by omega
          subst hje
          rw [if_neg]
          rintro ⟨_, hcc⟩
          rw [Nat.sub_self, List.getElem?_cons_zero] at hcc
          injection hcc with hbc
          exact hkj ⟨rfl, hbc.symm⟩
        · rw [if_neg (by rintro ⟨hcc, _⟩; exact hjk2 hcc)]

theorem chain_no_eps (bs : List Nat) (u : Nat) :
    epsTargets (NFA.fromBytes bs).transitions u = [] := by
  rw [fromBytes_eq]
  exact chain_epsTargets bs 0 u

theorem epsilon_closure_no_eps (n : NFA)
    (hne : ∀ u, epsTargets n.transitions u = []) (s : Nat) :
    n.epsilon_closure s = [s] := by
  have hsorted : (n.epsilon_closure s).Sorted (· < ·) := by
    rw [NFA.epsilon_closure]
    exact sorted_canon _
  apply sorted_lt_eq_of_mem_iff _ _ hsorted (List.sorted_singleton s)
  intro x
  rw [mem_epsilon_closure, List.mem_singleton]
  constructor
  · intro h
    induction h with
    | refl => rfl
    | tail _ hstep ihr =>
      simp only [EpsStep, hne] at hstep
      exact absurd hstep (List.not_mem_nil _)
  · rintro rfl
    exact Relation.ReflTransGen.refl

theorem lookup_single (u k v : Nat) :
    List.lookup u [(k, v)] = if u = k then some v else none := by
  by_cases h : u = k
  · subst h
    simp [List.lookup]
  · have hbeq : (u == k) = false := beq_eq_false_iff_ne.mpr h
    simp [List.lookup, hbeq, h]

theorem chain_transition_set (bs : List Nat) (j c : Nat) :
    (NFA.fromBytes bs).transition_set [j] c =
      if bs[j]? = some c then [j + 1] else [] := by
  by_cases hc : bs[j]? = some c
  · have htr : inputTargets (NFA.fromBytes bs).transitions j c = [j + 1] := by
      rw [fromBytes_eq, chain_inputTargets bs 0 j c]
      simp only [Nat.zero_le, Nat.sub_zero, true_and]
      rw [if_pos hc]
    rw [NFA.transition_set, List.flatMap_cons, List.flatMap_nil, List.append_nil, htr,
        List.flatMap_cons, List.flatMap_nil, List.append_nil,
        epsilon_closure_no_eps _ (chain_no_eps bs) (j + 1), if_pos hc]
    rfl
  · have htr : inputTargets (NFA.fromBytes bs).transitions j c = [] := by
      rw [fromBytes_eq, chain_inputTargets bs 0 j c]
      simp only [Nat.zero_le, Nat.sub_zero, true_and]
      rw [if_neg hc]
    rw [NFA.transition_set, List.flatMap_cons, List.flatMap_nil, List.append_nil, htr,
        List.flatMap_nil, if_neg hc]
    rfl

theorem fold_transition_set_nil (n : NFA) : ∀ x : List Nat,
    x.foldl n.transition_set [] = [] := by
  intro x
  induction x with
  | nil => rfl
  | cons c x ih =>
    rw [List.foldl_cons]
    have h : n.transition_set [] c = [] := rfl
    rw [h, ih]

theorem chain_accept_from (bs : List Nat) : ∀ (x : List Nat) (j : Nat), j ≤ bs.length →
    (((x.foldl (NFA.fromBytes bs).transition_set [j]).any
        (fun u => ((NFA.fromBytes bs).final_states.lookup u).isSome)) = true ↔
      x = bs.drop j) := by
  intro x
  induction x with
  | nil =>
    intro j hj
    have hfin : (NFA.fromBytes bs).final_states = [(bs.length, 0)] := by
      rw [fromBytes_eq]
    simp only [List.foldl_nil, List.any_cons, List.any_nil, Bool.or_false, hfin,
      lookup_single]
    by_cases hjl : j = bs.length
    · subst hjl
      simp [List.drop_length]
    · rw [if_neg hjl]
      simp only [Option.isSome_none]
      constructor
      · intro h
        cases h
      · intro h
        have hle : bs.length ≤ j := List.drop_eq_nil_iff.mp h.symm
        omega
  | cons c x ih =>
    intro j hj
    rw [List.foldl_cons, chain_transition_set]
    by_cases hc : bs[j]? = some c
    · rw [if_pos hc]
      obtain ⟨hjlt, hget⟩ := List.getElem?_eq_some.mp hc
      rw [ih (j + 1) hjlt]
      rw [List.drop_eq_getElem_cons hjlt, hget]
      simp
    · rw [if_neg hc, fold_transition_set_nil]
      simp only [List.any_nil]
      constructor
      · intro h
        cases h
      · intro h
        exfalso
        have hlt : j < bs.length := by
          by_contra hge
          rw [List.drop_eq_nil_iff.mpr (by omega)] at h
          cases h
        rw [List.drop_eq_getElem_cons hlt] at h
        injection h with h1 h2
        exact hc (List.getElem?_eq_some.mpr ⟨hlt, h1.symm⟩)

/-- The chain NFA built by `From<&str>` (and `From<char>`) accepts exactly its
own byte string. -/
theorem fromBytes_accepts (bs x : List Nat) :
    (NFA.fromBytes bs).accepts x = true ↔ x = bs := by
  rw [NFA.accepts, NFA.runSet]
  have h0 : (NFA.fromBytes bs).initial_state = 0 := by rw [fromBytes_eq]
  rw [h0, epsilon_closure_no_eps _ (chain_no_eps bs)]
  rw [chain_accept_from bs x 0 (Nat.zero_le _)]
  rw [List.drop_zero]

theorem rangeBytes_point (b : Nat) : rangeBytes (b, b) = [b] := by
  rw [rangeBytes]
  have h1 : b + 1 - b = 1 := by omega
  rw [h1]
  have h2 : List.range 1 = [0] := rfl
  rw [h2, List.map_cons, List.map_nil]
  simp

theorem seqInner_point (bs : List Nat) : ∀ last : Nat,
    fromRangeSeqInner (bs.map (fun b => (b, b))) last (last + 1) =
      ((bs.enumFrom last).map chainEntry, last + bs.length, last + bs.length + 1) := by
  induction bs with
  | nil => intro last; simp [fromRangeSeqInner]
  | cons b bs ih =>
    intro last
    rw [List.map_cons, fromRangeSeqInner, rangeBytes_point]
    rw [ih (last + 1)]
    rw [List.enumFrom_cons, List.map_cons]
    refine Prod.ext ?_ (Prod.ext ?_ ?_)
    · simp [chainEntry]
    · simp only [List.length_cons]
      omega
    · simp only [List.length_cons]
      omega

theorem fromRangePoint_eq (c : Nat) :
    NFA.fromRangePoint c = NFA.fromBytes (utf8Encode c) := by
  rw [NFA.fromRangePoint, NFA.fromRangeSeqs, utf8SequencesPoint]
  have hinner := seqInner_point (utf8Encode c) 0
  rw [Nat.zero_add] at hinner
  rw [fromRangeSeqsAux, hinner, fromRangeSeqsAux, fromBytes_eq]
  simp

/-- C7: for every Unicode scalar in the BMP, the NFA built from the
degenerate range `(c, c)` accepts exactly the byte sequence that is `c`'s
UTF-8 encoding and no other byte string.  (The hypotheses restrict `c` to the
claim's scope — `char` values up to `U+FFFF`; the equivalence holds for the
chain regardless.) -/
theorem from_range_point_accepts (c : Nat) (hbmp : c ≤ 0xFFFF)
    (hsur : c < 0xD800 ∨ 0xDFFF < c) (x : List Nat) :
    (NFA.fromRangePoint c).accepts x = true ↔ x = utf8Encode c := by
  rw [fromRangePoint_eq]
  exact fromBytes_accepts (utf8Encode c) x

/-- C7 witness at `c = U+4E2D` (a three-byte scalar): the NFA accepts exactly
`[0xE4, 0xB8, 0xAD]`. -/
theorem from_range_point_accepts_witness :
    (NFA.fromRangePoint 0x4E2D).accepts [0xE4, 0xB8, 0xAD] = true :=
  (from_range_point_accepts 0x4E2D (by decide) (Or.inl (by decide))
    [0xE4, 0xB8, 0xAD]).mpr (by decide)

/-!  Idempotence of `zero_or_more` (claim C8). -/

theorem dedup_singleton (x : (Nat × Transition) × Nat) : List.dedup [x] = [x] := by
  rw [List.dedup_cons_of_not_mem (List.not_mem_nil x), List.dedup_nil]

/-- Starring a starred NFA only adds an epsilon self-loop on the (shared)
initial state. -/
theorem star_star_transitions (a : NFA) :
    a.zero_or_more.zero_or_more.transitions =
      a.zero_or_more.transitions ++
        [((a.initial_state, Transition.epsilon), a.initial_state)] := by
  show a.zero_or_more.transitions ++
      ([(a.initial_state, 0)].map
        (fun p => ((p.1, Transition.epsilon), a.zero_or_more.initial_state))).dedup = _
  rw [List.map_cons, List.map_nil, dedup_singleton]
  rfl

theorem epsTargets_append_selfloop (tr : List ((Nat × Transition) × Nat))
    (i u : Nat) :
    epsTargets (tr ++ [((i, Transition.epsilon), i)]) u =
      epsTargets tr u ++ (if u = i then [i] else []) := by
  rw [epsTargets, List.filter_append, List.map_append, epsTargets]
  congr 1
  by_cases h : u = i
  · subst h
    rw [List.filter_cons, if_pos (by simp), List.filter_nil, List.map_cons,
        List.map_nil, if_pos rfl]
  · rw [List.filter_cons, if_neg (by simp [Ne.symm h]), List.filter_nil,
        List.map_nil, if_neg h]

theorem inputTargets_append_selfloop (tr : List ((Nat × Transition) × Nat))
    (i u b : Nat) :
    inputTargets (tr ++ [((i, Transition.epsilon), i)]) u b =
      inputTargets tr u b := by
  rw [inputTargets, List.filter_append]
  have hnil : [((i, Transition.epsilon), i)].filter
      (fun e => e.1 = (u, Transition.input b)) = [] := by
    simp
  rw [hnil, List.append_nil, inputTargets]

theorem epsReach_selfloop (tr : List ((Nat × Transition) × Nat)) (i s u : Nat) :
    EpsReach (tr ++ [((i, Transition.epsilon), i)]) s u ↔ EpsReach tr s u := by
  constructor
  · intro h
    induction h with
    | refl => exact Relation.ReflTransGen.refl
    | @tail mid last _ hstep ihr =>
      rw [EpsStep, epsTargets_append_selfloop] at hstep
      rcases List.mem_append.mp hstep with h1 | h1
      · exact Relation.ReflTransGen.tail ihr h1
      · by_cases hmid : mid = i
        · rw [if_pos hmid] at h1
          rw [List.mem_singleton] at h1
          rw [h1, ← hmid]
          exact ihr
        · rw [if_neg hmid] at h1
          exact absurd h1 (List.not_mem_nil _)
  · intro h
    refine Relation.ReflTransGen.mono ?_ h
    intro x y hxy
    rw [EpsStep, epsTargets_append_selfloop]
    exact List.mem_append_left _ hxy

theorem star_star_epsilon_closure (a : NFA) (s : Nat) :
    a.zero_or_more.zero_or_more.epsilon_closure s =
      a.zero_or_more.epsilon_closure s := by
  have hs1 : (a.zero_or_more.zero_or_more.epsilon_closure s).Sorted (· < ·) := by
    rw [NFA.epsilon_closure]
    exact sorted_canon _
  have hs2 : (a.zero_or_more.epsilon_closure s).Sorted (· < ·) := by
    rw [NFA.epsilon_closure]
    exact sorted_canon _
  apply sorted_lt_eq_of_mem_iff _ _ hs1 hs2
  intro x
  rw [mem_epsilon_closure, mem_epsilon_closure, star_star_transitions]
  exact epsReach_selfloop _ _ s x

theorem star_star_transition_set (a : NFA) (S : List Nat) (c : Nat) :
    a.zero_or_more.zero_or_more.transition_set S c =
      a.zero_or_more.transition_set S c := by
  have hf : ∀ u : Nat,
      (inputTargets a.zero_or_more.zero_or_more.transitions u c).flatMap
        (fun v => a.zero_or_more.zero_or_more.epsilon_closure v) =
      (inputTargets a.zero_or_more.transitions u c).flatMap
        (fun v => a.zero_or_more.epsilon_closure v) := by
    intro u
    rw [star_star_transitions, inputTargets_append_selfloop]
    congr 1
    funext v
    exact star_star_epsilon_closure a v
  rw [NFA.transition_set, NFA.transition_set]
  congr 1
  simp only [hf]

theorem star_star_fold (a : NFA) : ∀ (x S : List Nat),
    x.foldl a.zero_or_more.zero_or_more.transition_set S =
      x.foldl a.zero_or_more.transition_set S := by
  intro x
  induction x with
  | nil => intro S; rfl
  | cons c x ih =>
    intro S
    rw [List.foldl_cons, List.foldl_cons, star_star_transition_set, ih]

/-- C8: for every NFA `a`, `zero_or_more(zero_or_more(a))` accepts exactly
the same byte strings as `zero_or_more(a)`: the outer star only adds an
epsilon self-loop on the initial state (which is already the sole final
state), leaving epsilon reachability, the byte transitions, and the final
states unchanged. -/
theorem star_star_accepts (a : NFA) (x : List Nat) :
    a.zero_or_more.zero_or_more.accepts x = a.zero_or_more.accepts x := by
  rw [NFA.accepts, NFA.accepts, NFA.runSet, NFA.runSet]
  have hinit : a.zero_or_more.zero_or_more.initial_state =
      a.zero_or_more.initial_state := rfl
  rw [hinit, star_star_epsilon_closure, star_star_fold]
  rfl

/-!  The initial-state in-edge invariant (claim C5). -/

/-- No transition, byte or epsilon, targets the initial state. -/
def noInEdgesToInitial (n : NFA) : Prop :=
  ∀ e ∈ n.transitions, e.2 ≠ n.initial_state

/-- NFAs built from the algebra's literal constructors and closed under
concatenation, alternation, `one_or_more`, and `optional` — every combinator
except `zero_or_more`.  The `fromRange` constructor ranges over arbitrary
byte-range sequences, covering whatever the external UTF-8 decomposition
yields. -/
inductive AlgNFA : NFA → Prop where
  | fromChar (c : Char) : AlgNFA (NFA.fromChar c)
  | fromString (bs : List Nat) : AlgNFA (NFA.fromBytes bs)
  | fromRange (seqs : List (List (Nat × Nat))) : AlgNFA (NFA.fromRangeSeqs seqs)
  | concat {a b : NFA} : AlgNFA a → AlgNFA b → AlgNFA (a.concat b)
  | alt {a b : NFA} : AlgNFA a → AlgNFA b → AlgNFA (a.alt b)
  | one_or_more {a : NFA} : AlgNFA a → AlgNFA a.one_or_more
  | opt {a : NFA} : AlgNFA a → AlgNFA a.optional

theorem maxIdList_cons (e : (Nat × Transition) × Nat)
    (l : List ((Nat × Transition) × Nat)) :
    maxIdList (e :: l) = max (max e.1.1 e.2) (maxIdList l) := rfl

theorem maxIdList_append (l1 l2 : List ((Nat × Transition) × Nat)) :
    maxIdList (l1 ++ l2) = max (maxIdList l1) (maxIdList l2) := by
  induction l1 with
  | nil => simp [maxIdList]
  | cons e l ih =>
    rw [List.cons_append, maxIdList_cons, maxIdList_cons, ih]
    omega

theorem le_maxIdList_of_mem {l : List ((Nat × Transition) × Nat)}
    {e : (Nat × Transition) × Nat} (h : e ∈ l) :
    e.1.1 ≤ maxIdList l ∧ e.2 ≤ maxIdList l := by
  induction l with
  | nil => cases h
  | cons e2 l ih =>
    rw [maxIdList_cons]
    rcases List.mem_cons.mp h with h1 | h1
    · subst h1
      constructor
      · exact le_max_of_le_left (le_max_left _ _)
      · exact le_max_of_le_left (le_max_right _ _)
    · obtain ⟨ha, hb⟩ := ih h1
      exact ⟨le_max_of_le_right ha, le_max_of_le_right hb⟩

theorem fromBytes_inv (bs : List Nat) :
    noInEdgesToInitial (NFA.fromBytes bs) ∧
      (NFA.fromBytes bs).initial_state ≤ (NFA.fromBytes bs).max_state_id := by
  rw [fromBytes_eq]
  constructor
  · intro e he
    simp only [List.mem_map] at he
    obtain ⟨q, _, rfl⟩ := he
    simp [chainEntry]
  · exact Nat.zero_le _

theorem seqInner_next_le (seq : List (Nat × Nat)) : ∀ (last next : Nat),
    next ≤ (fromRangeSeqInner seq last next).2.2 := by
  induction seq with
  | nil => intro last next; exact Nat.le_refl _
  | cons r rest ih =>
    intro last next
    rw [fromRangeSeqInner]
    exact Nat.le_trans (Nat.le_succ next) (ih next (next + 1))

theorem seqInner_targets (seq : List (Nat × Nat)) : ∀ (last next : Nat),
    ∀ e ∈ (fromRangeSeqInner seq last next).1, next ≤ e.2 := by
  induction seq with
  | nil => intro last next e he; cases he
  | cons r rest ih =>
    intro last next e he
    rw [fromRangeSeqInner] at he
    rcases List.mem_append.mp he with h1 | h1
    · simp only [List.mem_map] at h1
      obtain ⟨b, _, rfl⟩ := h1
      exact Nat.le_refl _
    · exact Nat.le_trans (Nat.le_succ next) (ih next (next + 1) e h1)

theorem seqsAux_targets (seqs : List (List (Nat × Nat))) : ∀ (next : Nat),
    ∀ e ∈ (fromRangeSeqsAux seqs next).1, next ≤ e.2 := by
  induction seqs with
  | nil => intro next e he; cases he
  | cons seq rest ih =>
    intro next e he
    rw [fromRangeSeqsAux] at he
    rcases List.mem_append.mp he with h1 | h1
    · exact seqInner_targets seq 0 next e h1
    · exact Nat.le_trans (seqInner_next_le seq 0 next) (ih _ e h1)

theorem fromRangeSeqs_inv (seqs : List (List (Nat × Nat))) :
    noInEdgesToInitial (NFA.fromRangeSeqs seqs) ∧
      (NFA.fromRangeSeqs seqs).initial_state ≤
        (NFA.fromRangeSeqs seqs).max_state_id := by
  constructor
  · intro e he
    have h1 : 1 ≤ e.2 := seqsAux_targets seqs 1 e he
    have h0 : (NFA.fromRangeSeqs seqs).initial_state = 0 := rfl
    intro hc
    rw [h0] at hc
    omega
  · exact Nat.zero_le _

theorem concat_inv (a b : NFA)
    (ha : noInEdgesToInitial a ∧ a.initial_state ≤ a.max_state_id) :
    noInEdgesToInitial (a.concat b) ∧
      (a.concat b).initial_state ≤ (a.concat b).max_state_id := by
  obtain ⟨ha1, ha2⟩ := ha
  constructor
  · intro e he
    simp only [NFA.concat] at he ⊢
    rcases List.mem_append.mp he with h1 | h1
    · rcases List.mem_append.mp h1 with h2 | h2
      · exact ha1 e h2
      · simp only [List.mem_map] at h2
        obtain ⟨p, _, rfl⟩ := h2
        show b.initial_state + (a.max_state_id + 1) ≠ a.initial_state
        omega
    · simp only [biasedTrans, List.mem_map] at h1
      obtain ⟨p, _, rfl⟩ := h1
      show p.2 + (a.max_state_id + 1) ≠ a.initial_state
      omega
  · simp only [NFA.concat, NFA.max_state_id]
    rw [maxIdList_append, maxIdList_append]
    exact le_max_of_le_left (le_max_of_le_left ha2)

theorem alt_inv (a b : NFA) (ha2 : a.initial_state ≤ a.max_state_id)
    (hb2 : b.initial_state ≤ b.max_state_id) :
    noInEdgesToInitial (a.alt b) ∧
      (a.alt b).initial_state ≤ (a.alt b).max_state_id := by
  have hma : a.max_state_id = maxIdList a.transitions := rfl
  have hmb : b.max_state_id = maxIdList b.transitions := rfl
  constructor
  · intro e he
    simp only [NFA.alt] at he ⊢
    rcases List.mem_append.mp he with h1 | h1
    · rcases List.mem_append.mp h1 with h2 | h2
      · have hle := (le_maxIdList_of_mem h2).2
        intro hc
        omega
      · simp only [biasedTrans, List.mem_map] at h2
        obtain ⟨p, hp, rfl⟩ := h2
        have hle := (le_maxIdList_of_mem hp).2
        show p.2 + (a.max_state_id + 1) ≠ a.max_state_id + 1 + b.max_state_id + 1
        omega
    · rcases List.mem_cons.mp h1 with h3 | h3
      · subst h3
        show a.initial_state ≠ a.max_state_id + 1 + b.max_state_id + 1
        omega
      · rcases List.mem_cons.mp h3 with h4 | h4
        · subst h4
          show b.initial_state + (a.max_state_id + 1) ≠
            a.max_state_id + 1 + b.max_state_id + 1
          omega
        · cases h4
  · simp only [NFA.alt, NFA.max_state_id]
    exact (@le_maxIdList_of_mem
      (a.transitions ++ biasedTrans b.transitions (a.max_state_id + 1) ++
        [((a.max_state_id + 1 + b.max_state_id + 1, Transition.epsilon),
            a.initial_state),
         ((a.max_state_id + 1 + b.max_state_id + 1, Transition.epsilon),
            b.initial_state + (a.max_state_id + 1))])
      ((a.max_state_id + 1 + b.max_state_id + 1, Transition.epsilon),
        a.initial_state)
      (List.mem_append_right _ (List.mem_cons_self _ _))).1

theorem optional_inv (a : NFA)
    (ha1 : noInEdgesToInitial a) (ha2 : a.initial_state ≤ a.max_state_id) :
    noInEdgesToInitial a.optional ∧
      a.optional.initial_state ≤ a.optional.max_state_id := by
  constructor
  · intro e he
    simp only [NFA.optional] at he ⊢
    rcases List.mem_append.mp he with h1 | h1
    · rcases List.mem_append.mp h1 with h2 | h2
      · exact ha1 e h2
      · simp only [List.mem_map] at h2
        obtain ⟨p, _, rfl⟩ := h2
        show a.max_state_id + 1 ≠ a.initial_state
        omega
    · rcases List.mem_cons.mp h1 with h3 | h3
      · subst h3
        show a.max_state_id + 1 ≠ a.initial_state
        omega
      · cases h3
  · simp only [NFA.optional, NFA.max_state_id]
    rw [maxIdList_append, maxIdList_append]
    exact le_max_of_le_left (le_max_of_le_left ha2)

theorem algNFA_invariant (n : NFA) (h : AlgNFA n) :
    noInEdgesToInitial n ∧ n.initial_state ≤ n.max_state_id := by
  induction h with
  | fromChar c => exact fromBytes_inv _
  | fromString bs => exact fromBytes_inv bs
  | fromRange seqs => exact fromRangeSeqs_inv seqs
  | concat ha hb iha ihb => exact concat_inv _ _ iha
  | alt ha hb iha ihb => exact alt_inv _ _ iha.2 ihb.2
  | one_or_more ha iha => exact concat_inv _ _ iha
  | opt ha iha => exact optional_inv _ iha.1 iha.2

/-- C5 counterexample: `zero_or_more` adds an epsilon edge from the old final
state back to the initial state, so the starred single-character NFA has an
in-edge on its initial state — the claim is false as soon as `zero_or_more`
is among the closing combinators. -/
theorem star_initial_has_in_edge :
    ¬ noInEdgesToInitial (NFA.fromChar 'a').zero_or_more := by
  intro h
  exact h ((1, Transition.epsilon), 0) (by decide) rfl

/-- C5 (amended): for every NFA built from the literal constructors (char,
string, range) and closed under concatenation, alternation, `one_or_more`,
and `optional`, the initial state has no in-edges; `zero_or_more` is the one
combinator that violates the invariant (it bends epsilon edges from the old
finals back onto the initial state). -/
theorem alg_no_in_edges (n : NFA) (h : AlgNFA n) : noInEdgesToInitial n :=
  (algNFA_invariant n h).1

/-- C5 witness: the single-character NFA has no in-edge on its initial
state. -/
theorem alg_no_in_edges_witness : noInEdgesToInitial (NFA.fromChar 'a') :=
  alg_no_in_edges _ (AlgNFA.fromChar 'a')

end Particle
